import Mathlib

/-
Verification of the QKD simulation core (`FastQuantumKeyDistribution` in
`app.py`): the BB84 and E91 protocol simulators.

Modelling conventions:
* The numpy global random generator is modelled by an abstract state type `σ`
  together with a `Gen σ` record of the primitive draws the code performs
  (`np.random.randint(2)`, `np.random.random()`,
  `np.random.choice(n, k, replace=False)`, `np.random.seed`).  Every draw
  threads the state explicitly.  `GoodGen` records the contracts these numpy
  primitives satisfy (bits are below 2; `choice` with `replace=False` returns
  `k` distinct indices below `n`).
* Python floats are modelled by `ℚ`; the literals `0.2`, `0.15`, `0.7` become
  `1/5`, `3/20`, `7/10`.  `np.mean` of an empty array yields NaN in the code;
  a NaN-valued rate is modelled by `none : Option ℚ`, and the comparisons
  `nan > 0.15` / `nan < 0.7`, which are `False` in Python, are modelled by the
  `none` branches of `detectHighError` / `detectLowCorrelation`.
* A Python exception (`KeyError` from the polarization dict lookup,
  `IndexError` from fancy indexing) is modelled by an `Option`-valued
  function returning `none`.
-/

namespace QKD

/-- Abstract interface to the numpy global generator: each field is one of the
primitive draws `app.py` performs, threading the generator state. -/
structure Gen (σ : Type) where
  randBit : σ → Nat × σ
  randFloat : σ → ℚ × σ
  choice : Nat → Nat → Bool → σ → List Nat × σ
  seedFn : Int → σ

/-- Contracts of the numpy primitives used by the simulators:
`np.random.randint(2)` returns a value below 2, and
`np.random.choice(n, k, replace=False)` (for `k ≤ n`) returns `k` distinct
indices drawn from `[0, n)`. -/
structure GoodGen {σ : Type} (g : Gen σ) : Prop where
  randBit_lt : ∀ st, (g.randBit st).1 < 2
  choice_subset : ∀ n k st, k ≤ n →
    (g.choice n k false st).1.length = k ∧ (g.choice n k false st).1.Nodup ∧
      ∀ i ∈ (g.choice n k false st).1, i < n

variable {σ : Type}

/-- `np.random.randint(2, size=n)`: a list of `n` successive bit draws. -/
def drawBits (g : Gen σ) : Nat → σ → List Nat × σ
  | 0, st => ([], st)
  | n + 1, st =>
    let p := g.randBit st
    let rest := drawBits g n p.2
    (p.1 :: rest.1, rest.2)

/-- The `polarization_symbols` dict of `app.py`; `none` models a `KeyError`
for a key outside the four listed pairs. -/
def polarization_symbols : Nat → Nat → Option Char
  | 0, 0 => some '↑'
  | 0, 1 => some '↗'
  | 1, 0 => some '→'
  | 1, 1 => some '↘'
  | _, _ => none

/-- The list comprehension deriving `alice_polarizations`; a failing dict
lookup (KeyError) propagates as `none`. -/
def derivePolarizations : List (Nat × Nat) → Option (List Char)
  | [] => some []
  | p :: rest =>
    match polarization_symbols p.1 p.2, derivePolarizations rest with
    | some c, some l => some (c :: l)
    | _, _ => none

/-- The four-way `zip(alice_bits, alice_bases, bob_bases, alice_polarizations)`
of the main loop. -/
def zip4 (a b c : List Nat) (d : List Char) : List (Nat × Nat × Nat × Char) :=
  a.zip (b.zip (c.zip d))

/-- The five accumulator lists built by the main loop of `bb84_protocol`.
`eve_interventions` keeps the full `Option` value returned by the
eavesdropping simulation (the code stores only `eve_intervention is not None`,
and never reads the list again). -/
structure LoopOut where
  bob_results : List Nat
  bob_polarizations : List Char
  eve_interventions : List (Option Nat)
  matched_bases : List Bool
  shared_key : List Nat
deriving DecidableEq

/-- The main `for` loop of `bb84_protocol`: per quadruple
`(bit, alice_basis, bob_basis, polarization)` it runs
`fast_eavesdropping_simulation` (a float draw, plus a bit draw when Eve
intercepts, i.e. when the float is below `0.2`), then branches on basis
equality exactly as the source does. -/
def bb84Loop (g : Gen σ) : List (Nat × Nat × Nat × Char) → σ → LoopOut × σ
  | [], st => (⟨[], [], [], [], []⟩, st)
  | (bit, aliceBasis, bobBasis, pol) :: rest, st =>
    let r := g.randFloat st
    let ev : Option Nat × σ :=
      if r.1 < mkRat 1 5 then (some (g.randBit r.2).1, (g.randBit r.2).2)
      else (none, r.2)
    if aliceBasis = bobBasis then
      let bobResult := ev.1.getD bit
      let out := bb84Loop g rest ev.2
      (⟨bobResult :: out.1.bob_results, pol :: out.1.bob_polarizations,
        ev.1 :: out.1.eve_interventions, true :: out.1.matched_bases,
        bobResult :: out.1.shared_key⟩, out.2)
    else
      let guess := g.randBit ev.2
      let out := bb84Loop g rest guess.2
      (⟨guess.1 :: out.1.bob_results,
        (if bobBasis = 0 then '?' else '?') :: out.1.bob_polarizations,
        ev.1 :: out.1.eve_interventions, false :: out.1.matched_bases,
        out.1.shared_key⟩, out.2)

/-- `np.mean` of a boolean array: the fraction of `true` entries, or `none`
(NaN) for an empty array. -/
def meanIndicator (l : List Bool) : Option ℚ :=
  if l.isEmpty then none else some (mkRat (l.countP id) l.length)

/-- `alice_bits[comparison_subset] != np.array(bob_results)[comparison_subset]`:
the per-sampled-index disagreement flags; an out-of-range index (IndexError)
propagates as `none`. -/
def sampleDiff (a b : List Nat) : List Nat → Option (List Bool)
  | [] => some []
  | i :: rest =>
    match a[i]?, b[i]?, sampleDiff a b rest with
    | some x, some y, some l => some (decide (x ≠ y) :: l)
    | _, _, _ => none

/-- The `'+' if b == 0 else 'X'` rendering of a basis. -/
def basisChar (b : Nat) : Char := if b = 0 then '+' else 'X'

/-- The dict returned by `bb84_protocol` (its exact ten keys). -/
structure BB84Result where
  alice_bits : List Nat
  bob_bits : List Nat
  alice_bases : List Char
  bob_bases : List Char
  alice_polarizations : List Char
  bob_polarizations : List Char
  matched_bases : List Bool
  shared_key : List Nat
  error_rate : Option ℚ
  eavesdropping_detected : Bool
deriving DecidableEq

/-- `error_rate > 0.15`, with the numpy semantics `nan > 0.15 == False` on the
degenerate (NaN) rate. -/
def detectHighError : Option ℚ → Bool
  | none => false
  | some r => decide (mkRat 3 20 < r)

/-- `correlation_rate < 0.7`, with the numpy semantics
`nan < 0.7 == False` on the degenerate (NaN) rate. -/
def detectLowCorrelation : Option ℚ → Bool
  | none => false
  | some c => decide (c < mkRat 7 10)

/-- Assembly of the returned dict (lines 68-79 of `app.py`). -/
def bb84_assemble (alice_bits alice_bases bob_bases : List Nat)
    (alice_polarizations : List Char) (lo : LoopOut)
    (error_rate : Option ℚ) : BB84Result :=
  { alice_bits := alice_bits
    bob_bits := lo.bob_results
    alice_bases := alice_bases.map basisChar
    bob_bases := bob_bases.map basisChar
    alice_polarizations := alice_polarizations
    bob_polarizations := lo.bob_polarizations
    matched_bases := lo.matched_bases
    shared_key := lo.shared_key
    error_rate := error_rate
    eavesdropping_detected := detectHighError error_rate }

/-- The simulation up to (and including) the main loop: the three sequence
draws, the polarization derivation, and the loop. -/
def bb84_core (g : Gen σ) (n : Nat) (st : σ) :
    Option ((List Nat × List Nat × List Nat × List Char × LoopOut) × σ) :=
  let d1 := drawBits g n st
  let d2 := drawBits g n d1.2
  let d3 := drawBits g n d2.2
  match derivePolarizations (d1.1.zip d2.1) with
  | none => none
  | some pols =>
    let lp := bb84Loop g (zip4 d1.1 d2.1 d3.1 pols) d3.2
    some ((d1.1, d2.1, d3.1, pols, lp.1), lp.2)

/-- `bb84_protocol` from an explicit generator state (after optional
reseeding): core, then `np.random.choice(n_qubits, n_qubits // 2,
replace=False)` and the error-rate estimate. -/
def bb84_run (g : Gen σ) (n : Nat) (st : σ) : Option (BB84Result × σ) :=
  match bb84_core g n st with
  | none => none
  | some ((bits, abas, bbas, pols, lo), st1) =>
    let cs := g.choice n (n / 2) false st1
    match sampleDiff bits lo.bob_results cs.1 with
    | none => none
    | some diffs =>
      some (bb84_assemble bits abas bbas pols lo (meanIndicator diffs), cs.2)

/-- `if _seed is not None: np.random.seed(_seed)`. -/
def seedState (g : Gen σ) (seed : Option Int) (st0 : σ) : σ :=
  match seed with
  | some s => g.seedFn s
  | none => st0

/-- `FastQuantumKeyDistribution.bb84_protocol(n_qubits, _seed)`, acting on the
global generator state `st0`. -/
def bb84_protocol (g : Gen σ) (n : Nat) (seed : Option Int) (st0 : σ) :
    Option (BB84Result × σ) :=
  bb84_run g n (seedState g seed st0)

/-- The dict returned by `e91_protocol` (its exact four keys). -/
structure E91Result where
  alice_bases : List Nat
  bob_bases : List Nat
  correlation_rate : Option ℚ
  eavesdropped : Bool
deriving DecidableEq

/-- `FastQuantumKeyDistribution.e91_protocol(n_qubits, _seed)`: two basis
draws, the basis-agreement rate, and the `0.7` threshold. -/
def e91_protocol (g : Gen σ) (n : Nat) (seed : Option Int) (st0 : σ) :
    Option (E91Result × σ) :=
  let st := seedState g seed st0
  let d1 := drawBits g n st
  let d2 := drawBits g n d1.2
  let correlated := (d1.1.zip d2.1).map (fun p => decide (p.1 = p.2))
  let corr := meanIndicator correlated
  some ({ alice_bases := d1.1, bob_bases := d2.1, correlation_rate := corr,
          eavesdropped := detectLowCorrelation corr }, d2.2)

/-- A concrete executable generator used to witness the theorems on sample
inputs: a counter state with simple arithmetic draws. -/
def cgen : Gen Nat :=
  { randBit := fun st => (st % 2, st + 1)
    randFloat := fun st => (mkRat (st % 10) 10, st + 1)
    choice := fun _ k _ st => (List.range k, st + k)
    seedFn := fun s => s.natAbs }

theorem cgen_good : GoodGen cgen := by
  constructor
  · intro st
    exact Nat.mod_lt _ (by decide)
  · intro n k st hk
    refine ⟨List.length_range k, List.nodup_range k, ?_⟩
    intro i hi
    exact lt_of_lt_of_le (List.mem_range.mp hi) hk

/-! Helper lemmas about the draw primitives and list plumbing. -/

theorem drawBits_length (g : Gen σ) (n : Nat) (st : σ) :
    (drawBits g n st).1.length = n := by
  induction n generalizing st with
  | zero => rfl
  | succ n ih => simp [drawBits, ih]

theorem drawBits_lt_two {g : Gen σ} (hg : GoodGen g) (n : Nat) (st : σ) :
    ∀ x ∈ (drawBits g n st).1, x < 2 := by
  induction n generalizing st with
  | zero => intro x hx; simp [drawBits] at hx
  | succ n ih =>
    intro x hx
    simp only [drawBits, List.mem_cons] at hx
    rcases hx with h | h
    · exact h ▸ hg.randBit_lt st
    · exact ih _ x h

theorem zip_getElem_eq {α β : Type} (a : List α) (b : List β) (i : Nat)
    (x : α) (y : β) :
    (a.zip b)[i]? = some (x, y) ↔ a[i]? = some x ∧ b[i]? = some y := by
  induction a generalizing b i with
  | nil => simp
  | cons ha ta ih =>
    cases b with
    | nil => simp
    | cons hb tb =>
      cases i with
      | zero => simp [List.zip_cons_cons, Prod.ext_iff]
      | succ j => simpa [List.zip_cons_cons] using ih tb j

theorem zip4_getElem_eq (la lb lc : List Nat) (ld : List Char) (i : Nat)
    (x y z : Nat) (w : Char) :
    (zip4 la lb lc ld)[i]? = some (x, y, z, w) ↔
      la[i]? = some x ∧ lb[i]? = some y ∧ lc[i]? = some z ∧ ld[i]? = some w := by
  simp [zip4, zip_getElem_eq]

theorem zip4_length_of {a b c : List Nat} {d : List Char} {n : Nat}
    (ha : a.length = n) (hb : b.length = n) (hc : c.length = n)
    (hd : d.length = n) : (zip4 a b c d).length = n := by
  simp [zip4, List.length_zip, ha, hb, hc, hd]

theorem pol_total : ∀ b, b < 2 → ∀ s, s < 2 →
    (polarization_symbols b s).isSome = true := by decide

theorem derivePolarizations_length :
    ∀ {l : List (Nat × Nat)} {cs : List Char},
      derivePolarizations l = some cs → cs.length = l.length := by
  intro l
  induction l with
  | nil =>
    intro cs h
    simp only [derivePolarizations, Option.some_inj] at h
    subst h; rfl
  | cons p rest ih =>
    intro cs h
    unfold derivePolarizations at h
    split at h
    · next c l' hc hrest =>
      cases h
      simp [List.length_cons, ih hrest]
    · cases h

theorem derivePolarizations_some :
    ∀ {l : List (Nat × Nat)}, (∀ p ∈ l, p.1 < 2 ∧ p.2 < 2) →
      ∃ cs, derivePolarizations l = some cs ∧ cs.length = l.length := by
  intro l
  induction l with
  | nil => intro _; exact ⟨[], rfl, rfl⟩
  | cons p rest ih =>
    intro h
    obtain ⟨h1, h2⟩ := h p (List.mem_cons_self p rest)
    obtain ⟨c, hc⟩ := Option.isSome_iff_exists.mp (pol_total p.1 h1 p.2 h2)
    obtain ⟨cs, hcs, hlen⟩ := ih (fun q hq => h q (List.mem_cons_of_mem p hq))
    exact ⟨c :: cs, by simp [derivePolarizations, hc, hcs], by simp [hlen]⟩

theorem meanIndicator_some (l : List Bool) (h : l ≠ []) :
    meanIndicator l = some (mkRat (l.countP id) l.length) := by
  simp [meanIndicator, h]

theorem mkRat_mem_unit {c n : Nat} (hc : c ≤ n) (hn : 0 < n) :
    0 ≤ mkRat c n ∧ mkRat c n ≤ 1 := by
  rw [Rat.mkRat_eq_div]
  constructor
  · positivity
  · rw [div_le_one (by exact_mod_cast hn)]
    exact_mod_cast hc

theorem sampleDiff_spec (a b : List Nat) :
    ∀ (s : List Nat), (∀ i ∈ s, i < a.length ∧ i < b.length) →
      ∃ l, sampleDiff a b s = some l ∧ l.length = s.length ∧
        l.countP id = s.countP (fun i => decide (a.getD i 0 ≠ b.getD i 0)) := by
  intro s
  induction s with
  | nil => intro _; exact ⟨[], rfl, rfl, rfl⟩
  | cons i rest ih =>
    intro h
    obtain ⟨hia, hib⟩ := h i (List.mem_cons_self i rest)
    obtain ⟨l, hl, hlen, hcnt⟩ := ih (fun j hj => h j (List.mem_cons_of_mem i hj))
    refine ⟨decide (a[i] ≠ b[i]) :: l, ?_, ?_, ?_⟩
    · simp [sampleDiff, List.getElem?_eq_getElem, hia, hib, hl]
    · simp [hlen]
    · simp [List.countP_cons, hcnt, List.getD_eq_getElem?_getD,
        List.getElem?_eq_getElem, hia, hib]

/-! Structural lemmas about the main BB84 loop. -/

theorem bb84Loop_matched (g : Gen σ) (l : List (Nat × Nat × Nat × Char))
    (st : σ) :
    (bb84Loop g l st).1.matched_bases =
      l.map (fun q => decide (q.2.1 = q.2.2.1)) := by
  induction l generalizing st with
  | nil => rfl
  | cons q rest ih =>
    obtain ⟨b0, a0, bb0, p0⟩ := q
    by_cases h0 : a0 = bb0 <;> simp [bb84Loop, h0, ih]

theorem bb84Loop_pols (g : Gen σ) (l : List (Nat × Nat × Nat × Char))
    (st : σ) :
    (bb84Loop g l st).1.bob_polarizations =
      l.map (fun q => if q.2.1 = q.2.2.1 then q.2.2.2 else '?') := by
  induction l generalizing st with
  | nil => rfl
  | cons q rest ih =>
    obtain ⟨b0, a0, bb0, p0⟩ := q
    by_cases h0 : a0 = bb0 <;> simp [bb84Loop, h0, ih]

theorem bb84Loop_bob_length (g : Gen σ) (l : List (Nat × Nat × Nat × Char))
    (st : σ) : (bb84Loop g l st).1.bob_results.length = l.length := by
  induction l generalizing st with
  | nil => rfl
  | cons q rest ih =>
    obtain ⟨b0, a0, bb0, p0⟩ := q
    by_cases h0 : a0 = bb0 <;> simp [bb84Loop, h0, ih]

theorem bb84Loop_eve_length (g : Gen σ) (l : List (Nat × Nat × Nat × Char))
    (st : σ) : (bb84Loop g l st).1.eve_interventions.length = l.length := by
  induction l generalizing st with
  | nil => rfl
  | cons q rest ih =>
    obtain ⟨b0, a0, bb0, p0⟩ := q
    by_cases h0 : a0 = bb0 <;> simp [bb84Loop, h0, ih]

theorem bb84Loop_shared_eq (g : Gen σ) (l : List (Nat × Nat × Nat × Char))
    (st : σ) :
    (bb84Loop g l st).1.shared_key =
      ((bb84Loop g l st).1.matched_bases.zip
          (bb84Loop g l st).1.bob_results).filterMap
        (fun p => if p.1 then some p.2 else none) := by
  induction l generalizing st with
  | nil => rfl
  | cons q rest ih =>
    obtain ⟨b0, a0, bb0, p0⟩ := q
    by_cases h0 : a0 = bb0 <;>
      simp [bb84Loop, h0, List.zip_cons_cons, List.filterMap_cons, ih]

theorem bb84Loop_shared_len (g : Gen σ) (l : List (Nat × Nat × Nat × Char))
    (st : σ) :
    (bb84Loop g l st).1.shared_key.length =
      (bb84Loop g l st).1.matched_bases.countP (fun m => m) := by
  induction l generalizing st with
  | nil => rfl
  | cons q rest ih =>
    obtain ⟨b0, a0, bb0, p0⟩ := q
    by_cases h0 : a0 = bb0 <;> simp [bb84Loop, h0, List.countP_cons, ih]

theorem bb84Loop_bob_getElem (g : Gen σ) (l : List (Nat × Nat × Nat × Char))
    (st : σ) (i : Nat) (bit ab bb : Nat) (pol : Char)
    (hq : l[i]? = some (bit, ab, bb, pol)) (hm : ab = bb) :
    ∃ e, (bb84Loop g l st).1.eve_interventions[i]? = some e ∧
      (bb84Loop g l st).1.bob_results[i]? = some (e.getD bit) := by
  induction l generalizing st i with
  | nil => simp at hq
  | cons q rest ih =>
    obtain ⟨b0, a0, bb0, p0⟩ := q
    cases i with
    | zero =>
      simp only [List.getElem?_cons_zero, Option.some_inj, Prod.mk.injEq] at hq
      obtain ⟨hb, ha, hbb, hp⟩ := hq
      subst hb; subst ha; subst hbb; subst hp
      simp [bb84Loop, hm]
    | succ j =>
      rw [List.getElem?_cons_succ] at hq
      by_cases h0 : a0 = bb0 <;> simp [bb84Loop, h0] <;> exact ih _ j hq

theorem bb84Loop_bob_lt {g : Gen σ} (hg : GoodGen g)
    (l : List (Nat × Nat × Nat × Char)) (st : σ)
    (hbit : ∀ q ∈ l, q.1 < 2) :
    ∀ x ∈ (bb84Loop g l st).1.bob_results, x < 2 := by
  induction l generalizing st with
  | nil => intro x hx; simp [bb84Loop] at hx
  | cons q rest ih =>
    obtain ⟨b0, a0, bb0, p0⟩ := q
    intro x hx
    have hb0 : b0 < 2 := hbit _ (List.mem_cons_self _ _)
    have hrest : ∀ q ∈ rest, q.1 < 2 :=
      fun q hq => hbit q (List.mem_cons_of_mem _ hq)
    by_cases h0 : a0 = bb0
    · simp only [bb84Loop, h0, if_pos, List.mem_cons] at hx
      rcases hx with rfl | hx
      · by_cases hr : (g.randFloat st).1 < mkRat 1 5
        · simp only [hr, if_pos]
          exact hg.randBit_lt _
        · simp only [hr, if_neg, not_false_iff]
          exact hb0
      · exact ih _ hrest x hx
    · simp only [bb84Loop, h0, if_neg, not_false_iff, List.mem_cons] at hx
      rcases hx with rfl | hx
      · exact hg.randBit_lt _
      · exact ih _ hrest x hx

/-! Inversion and existence lemmas for the assembled simulations. -/

theorem bb84_core_inv {g : Gen σ} {n : Nat} {st : σ}
    {bits abas bbas : List Nat} {pols : List Char} {lo : LoopOut} {st1 : σ}
    (h : bb84_core g n st = some ((bits, abas, bbas, pols, lo), st1)) :
    bits = (drawBits g n st).1 ∧
    abas = (drawBits g n (drawBits g n st).2).1 ∧
    bbas = (drawBits g n (drawBits g n (drawBits g n st).2).2).1 ∧
    derivePolarizations (bits.zip abas) = some pols ∧
    lo = (bb84Loop g (zip4 bits abas bbas pols)
            (drawBits g n (drawBits g n (drawBits g n st).2).2).2).1 ∧
    st1 = (bb84Loop g (zip4 bits abas bbas pols)
            (drawBits g n (drawBits g n (drawBits g n st).2).2).2).2 := by
  simp only [bb84_core] at h
  cases hp : derivePolarizations
      ((drawBits g n st).1.zip (drawBits g n (drawBits g n st).2).1) with
  | none => rw [hp] at h; cases h
  | some pols' =>
    rw [hp] at h
    simp only [Option.some_inj, Prod.mk.injEq] at h
    obtain ⟨⟨h1, h2, h3, h4, h5⟩, h6⟩ := h
    subst h1; subst h2; subst h3; subst h4; subst h5; subst h6
    exact ⟨rfl, rfl, rfl, hp, rfl, rfl⟩

theorem bb84_core_some {g : Gen σ} (hg : GoodGen g) (n : Nat) (st : σ) :
    ∃ bits abas bbas pols lo st1,
      bb84_core g n st = some ((bits, abas, bbas, pols, lo), st1) := by
  have hzip : ∀ p ∈ (drawBits g n st).1.zip
      (drawBits g n (drawBits g n st).2).1, p.1 < 2 ∧ p.2 < 2 := by
    intro p hp
    obtain ⟨x, y⟩ := p
    obtain ⟨h1, h2⟩ := List.of_mem_zip hp
    exact ⟨drawBits_lt_two hg n st x h1,
      drawBits_lt_two hg n (drawBits g n st).2 y h2⟩
  obtain ⟨pols, hpols, _⟩ := derivePolarizations_some hzip
  refine ⟨(drawBits g n st).1, (drawBits g n (drawBits g n st).2).1,
    (drawBits g n (drawBits g n (drawBits g n st).2).2).1, pols,
    (bb84Loop g (zip4 (drawBits g n st).1 (drawBits g n (drawBits g n st).2).1
        (drawBits g n (drawBits g n (drawBits g n st).2).2).1 pols)
      (drawBits g n (drawBits g n (drawBits g n st).2).2).2).1,
    (bb84Loop g (zip4 (drawBits g n st).1 (drawBits g n (drawBits g n st).2).1
        (drawBits g n (drawBits g n (drawBits g n st).2).2).1 pols)
      (drawBits g n (drawBits g n (drawBits g n st).2).2).2).2, ?_⟩
  simp [bb84_core, hpols]

theorem bb84_run_eq {g : Gen σ} {n : Nat} {st : σ}
    {bits abas bbas : List Nat} {pols : List Char} {lo : LoopOut} {st1 : σ}
    {diffs : List Bool}
    (hc : bb84_core g n st = some ((bits, abas, bbas, pols, lo), st1))
    (hd : sampleDiff bits lo.bob_results
        (g.choice n (n / 2) false st1).1 = some diffs) :
    bb84_run g n st = some
      (bb84_assemble bits abas bbas pols lo (meanIndicator diffs),
        (g.choice n (n / 2) false st1).2) := by
  simp [bb84_run, hc, hd]

theorem bb84_run_inv {g : Gen σ} {n : Nat} {st : σ}
    {bits abas bbas : List Nat} {pols : List Char} {lo : LoopOut} {st1 : σ}
    {res : BB84Result} {st2 : σ}
    (hc : bb84_core g n st = some ((bits, abas, bbas, pols, lo), st1))
    (hr : bb84_run g n st = some (res, st2)) :
    ∃ diffs,
      sampleDiff bits lo.bob_results
          (g.choice n (n / 2) false st1).1 = some diffs ∧
      res = bb84_assemble bits abas bbas pols lo (meanIndicator diffs) ∧
      st2 = (g.choice n (n / 2) false st1).2 := by
  simp only [bb84_run, hc] at hr
  cases hd : sampleDiff bits lo.bob_results
      (g.choice n (n / 2) false st1).1 with
  | none => rw [hd] at hr; cases hr
  | some diffs =>
    rw [hd] at hr
    simp only [Option.some_inj, Prod.mk.injEq] at hr
    exact ⟨diffs, rfl, hr.1.symm, hr.2.symm⟩

theorem bb84_core_lengths {g : Gen σ} {n : Nat} {st : σ}
    {bits abas bbas : List Nat} {pols : List Char} {lo : LoopOut} {st1 : σ}
    (hc : bb84_core g n st = some ((bits, abas, bbas, pols, lo), st1)) :
    bits.length = n ∧ abas.length = n ∧ bbas.length = n ∧
    pols.length = n ∧ (zip4 bits abas bbas pols).length = n ∧
    lo.bob_results.length = n ∧ lo.eve_interventions.length = n ∧
    lo.matched_bases.length = n := by
  obtain ⟨h1, h2, h3, h4, h5, _⟩ := bb84_core_inv hc
  have hbits : bits.length = n := by rw [h1]; exact drawBits_length g n st
  have habas : abas.length = n := by rw [h2]; exact drawBits_length g n _
  have hbbas : bbas.length = n := by rw [h3]; exact drawBits_length g n _
  have hpols : pols.length = n := by
    rw [derivePolarizations_length h4, List.length_zip, hbits, habas]
    exact Nat.min_self n
  have hquad : (zip4 bits abas bbas pols).length = n :=
    zip4_length_of hbits habas hbbas hpols
  refine ⟨hbits, habas, hbbas, hpols, hquad, ?_, ?_, ?_⟩
  · rw [h5, bb84Loop_bob_length, hquad]
  · rw [h5, bb84Loop_eve_length, hquad]
  · rw [h5, bb84Loop_matched, List.length_map, hquad]

theorem bb84_run_some {g : Gen σ} (hg : GoodGen g) (n : Nat) (st : σ) :
    ∃ bits abas bbas pols lo st1 diffs,
      bb84_core g n st = some ((bits, abas, bbas, pols, lo), st1) ∧
      sampleDiff bits lo.bob_results
          (g.choice n (n / 2) false st1).1 = some diffs ∧
      diffs.length = n / 2 ∧
      bb84_run g n st = some
        (bb84_assemble bits abas bbas pols lo (meanIndicator diffs),
          (g.choice n (n / 2) false st1).2) := by
  obtain ⟨bits, abas, bbas, pols, lo, st1, hc⟩ := bb84_core_some hg n st
  obtain ⟨hbits, _, _, _, _, hbob, _, _⟩ := bb84_core_lengths hc
  obtain ⟨hclen, _, hcmem⟩ :=
    hg.choice_subset n (n / 2) st1 (Nat.div_le_self n 2)
  obtain ⟨diffs, hd, hdlen, _⟩ := sampleDiff_spec bits lo.bob_results _
    (fun i hi => ⟨by rw [hbits]; exact hcmem i hi,
                  by rw [hbob]; exact hcmem i hi⟩)
  exact ⟨bits, abas, bbas, pols, lo, st1, diffs, hc, hd,
    by rw [hdlen, hclen], bb84_run_eq hc hd⟩

theorem detectHighError_iff (er : Option ℚ) :
    detectHighError er = true ↔ ∃ r, er = some r ∧ mkRat 3 20 < r := by
  cases er <;> simp [detectHighError]

theorem detectLowCorrelation_iff (er : Option ℚ) :
    detectLowCorrelation er = true ↔ ∃ q, er = some q ∧ q < mkRat 7 10 := by
  cases er <;> simp [detectLowCorrelation]

theorem e91_protocol_eq (g : Gen σ) (n : Nat) (seed : Option Int) (st0 : σ) :
    e91_protocol g n seed st0 =
      some ({ alice_bases := (drawBits g n (seedState g seed st0)).1,
              bob_bases :=
                (drawBits g n (drawBits g n (seedState g seed st0)).2).1,
              correlation_rate := meanIndicator
                (((drawBits g n (seedState g seed st0)).1.zip
                    (drawBits g n (drawBits g n (seedState g seed st0)).2).1).map
                  (fun p => decide (p.1 = p.2))),
              eavesdropped := detectLowCorrelation (meanIndicator
                (((drawBits g n (seedState g seed st0)).1.zip
                    (drawBits g n (drawBits g n (seedState g seed st0)).2).1).map
                  (fun p => decide (p.1 = p.2)))) },
            (drawBits g n (drawBits g n (seedState g seed st0)).2).2) := rfl

/-- The `n_qubits = 2`, `seed = 0` run of `bb84_protocol` under the concrete
generator: the accumulator lists built by its loop. -/
def clo2 : LoopOut :=
  ⟨[0, 1], ['↑', '↘'], [none, none], [true, true], [0, 1]⟩

/-- The `n_qubits = 2`, `seed = 0` run of `bb84_protocol` under the concrete
generator: the returned result. -/
def cres2 : BB84Result :=
  ⟨[0, 1], [0, 1], ['+', 'X'], ['+', 'X'], ['↑', '↘'], ['↑', '↘'],
    [true, true], [0, 1], some (mkRat 0 1), false⟩

/-- The `n_qubits = 1`, `seed = 0` run of `e91_protocol` under the concrete
generator: the returned result. -/
def cresE91 : E91Result := ⟨[0], [1], some (mkRat 0 1), true⟩

/-! The claims. -/

/-- Claim C4: with an integer seed supplied, the simulators reseed the
generator before drawing, so their output does not depend on the incoming
global generator state: two invocations of `bb84_protocol` (respectively
`e91_protocol`) with the same `(n_qubits, seed)` produce identical results in
every field. -/
theorem protocols_deterministic (g : Gen σ) (n : Nat) (s : Int)
    (st1 st2 : σ) :
    bb84_protocol g n (some s) st1 = bb84_protocol g n (some s) st2 ∧
    e91_protocol g n (some s) st1 = e91_protocol g n (some s) st2 :=
  ⟨rfl, rfl⟩

/-- Claim C8: the polarization encoding is a total deterministic map on the
4-element domain of `(bit, basis)` pairs with both components below 2, lands
in the four fixed symbols, and is injective there. -/
theorem polarization_total_injective :
    (∀ b, b < 2 → ∀ s, s < 2 → ∃ c, polarization_symbols b s = some c ∧
        c ∈ ['↑', '↗', '→', '↘']) ∧
    (∀ b, b < 2 → ∀ s, s < 2 → ∀ b2, b2 < 2 → ∀ s2, s2 < 2 →
      polarization_symbols b s = polarization_symbols b2 s2 →
      b = b2 ∧ s = s2) := by
  constructor
  · intro b hb s hs
    interval_cases b <;> interval_cases s <;> exact ⟨_, rfl, by decide⟩
  · intro b hb s hs b2 hb2 s2 hs2
    interval_cases b <;> interval_cases s <;> interval_cases b2 <;>
      interval_cases s2 <;> decide

/-- Witness for C8 at the concrete pair `(0, 1)`. -/
theorem polarization_total_injective_witness :
    ∃ c, polarization_symbols 0 1 = some c ∧ c ∈ ['↑', '↗', '→', '↘'] :=
  polarization_total_injective.1 0 (by decide) 1 (by decide)

/-- Claim C10: the returned BB84 record hides Eve's interventions: the
assembly of the result is invariant under replacing the loop's
`eve_interventions` trace, and a `BB84Result` consists of exactly its ten
documented fields. -/
theorem result_hides_eve :
    (∀ (bits abas bbas : List Nat) (pols : List Char) (lo : LoopOut)
        (evs : List (Option Nat)) (er : Option ℚ),
      bb84_assemble bits abas bbas pols
          { lo with eve_interventions := evs } er =
        bb84_assemble bits abas bbas pols lo er) ∧
    (∀ r : BB84Result,
      r = ⟨r.alice_bits, r.bob_bits, r.alice_bases, r.bob_bases,
            r.alice_polarizations, r.bob_polarizations, r.matched_bases,
            r.shared_key, r.error_rate, r.eavesdropping_detected⟩) :=
  ⟨fun _ _ _ _ _ _ _ => rfl, fun _ => rfl⟩

/-- Claim C2 counterexample: `n_qubits = 0` is not a positive integer, yet
`e91_protocol` does not reject the call: it runs to completion and returns a
normal result (with NaN correlation rate), so no validation failure is
surfaced. -/
theorem no_validation_cex :
    e91_protocol cgen 0 (some 0) (0 : Nat) =
      some ({ alice_bases := [], bob_bases := [],
              correlation_rate := none, eavesdropped := false }, 0) := by
  decide

/-- Claim C2 amended: the simulators perform no parameter validation.  For
any generator, seed and state, `e91_protocol` called with `n_qubits = 0`
proceeds through the simulation and returns a normal result with empty
sequences, NaN (`none`) correlation rate and `eavesdropped = false`, instead
of surfacing a validation failure; nothing is clamped. -/
theorem e91_no_validation (g : Gen σ) (seed : Option Int) (st0 : σ) :
    e91_protocol g 0 seed st0 =
      some ({ alice_bases := [], bob_bases := [],
              correlation_rate := none, eavesdropped := false },
            seedState g seed st0) := rfl

/-- Claim C1 counterexample: at `n_qubits = 1`, `seed = 0` under the concrete
generator, the call returns normally and `eavesdropping_detected = false`,
but `error_rate` is NaN (`none`), not `0.0` as the degenerate-sample
convention claims. -/
theorem degenerate_error_rate_cex :
    (bb84_protocol cgen 1 (some 0) (0 : Nat)).map
        (fun p => (p.1.error_rate, p.1.eavesdropping_detected)) =
      some (none, false) ∧
    (bb84_protocol cgen 1 (some 0) (0 : Nat)).map (fun p => p.1.error_rate) ≠
      some (some 0) := by
  constructor <;> decide

/-- Claim C1 amended: for `n_qubits = 1` (empty comparison subset) the BB84
call never throws and returns `eavesdropping_detected = false`, but its error
rate is NaN (`none`) — the mean of an empty sample — rather than `0.0`. -/
theorem bb84_degenerate {g : Gen σ} (hg : GoodGen g) (seed : Option Int)
    (st0 : σ) :
    ∃ res st', bb84_protocol g 1 seed st0 = some (res, st') ∧
      res.error_rate = none ∧ res.eavesdropping_detected = false := by
  obtain ⟨bits, abas, bbas, pols, lo, st1, diffs, hc, hd, hdlen, hr⟩ :=
    bb84_run_some hg 1 (seedState g seed st0)
  have hnil : diffs = [] := List.length_eq_zero.mp (by rw [hdlen])
  subst hnil
  exact ⟨_, _, hr, rfl, rfl⟩

/-- Witness for the amended C1 at the concrete generator, seed 0. -/
theorem bb84_degenerate_witness :
    ∃ res st', bb84_protocol cgen 1 (some 0) (0 : Nat) = some (res, st') ∧
      res.error_rate = none ∧ res.eavesdropping_detected = false :=
  bb84_degenerate cgen_good (some 0) 0

/-- Claim C3 counterexample: `n_qubits = 1` is a positive integer, yet the
returned BB84 error rate is NaN (`none`), hence not a rational in `[0, 1]`. -/
theorem range_invariant_cex :
    (bb84_protocol cgen 1 (some 0) (0 : Nat)).map
      (fun p => p.1.error_rate.isSome) = some false := by decide

/-- Claim C3 amended: every bit in `alice_bits`, `bob_bits` and `shared_key`
is 0 or 1, the E91 correlation rate is a rational in `[0, 1]` for every
`n_qubits ≥ 1`, and the BB84 error rate is a rational in `[0, 1]` for every
`n_qubits ≥ 2`; at `n_qubits = 1` the error rate is NaN (see the
counterexample), so the `[0, 1]` range claim fails there. -/
theorem range_invariants {g : Gen σ} (hg : GoodGen g) (n : Nat)
    (seed : Option Int) (st0 : σ) :
    (∀ res st', bb84_protocol g n seed st0 = some (res, st') →
      (∀ b ∈ res.alice_bits, b < 2) ∧ (∀ b ∈ res.bob_bits, b < 2) ∧
      (∀ b ∈ res.shared_key, b < 2) ∧
      (2 ≤ n → ∃ r, res.error_rate = some r ∧ 0 ≤ r ∧ r ≤ 1)) ∧
    (∀ res st', e91_protocol g n seed st0 = some (res, st') → 1 ≤ n →
      ∃ q, res.correlation_rate = some q ∧ 0 ≤ q ∧ q ≤ 1) := by
  constructor
  · intro res st' hr
    obtain ⟨bits, abas, bbas, pols, lo, st1, diffs, hc, hd, hdlen, hrun⟩ :=
      bb84_run_some hg n (seedState g seed st0)
    have hr' : bb84_run g n (seedState g seed st0) = some (res, st') := hr
    rw [hrun] at hr'
    simp only [Option.some_inj, Prod.mk.injEq] at hr'
    obtain ⟨hres, -⟩ := hr'
    subst hres
    obtain ⟨h1, h2, h3, h4, h5, h6⟩ := bb84_core_inv hc
    have hbitslt : ∀ b ∈ bits, b < 2 := by
      rw [h1]; exact drawBits_lt_two hg n _
    have hquadlt : ∀ q ∈ zip4 bits abas bbas pols, q.1 < 2 := by
      intro q hq
      obtain ⟨x, y⟩ := q
      exact hbitslt x (List.of_mem_zip hq).1
    have hboblt : ∀ b ∈ lo.bob_results, b < 2 := by
      rw [h5]; exact bb84Loop_bob_lt hg _ _ hquadlt
    have hsh : lo.shared_key =
        (lo.matched_bases.zip lo.bob_results).filterMap
          (fun p => if p.1 then some p.2 else none) := by
      rw [h5]; exact bb84Loop_shared_eq g _ _
    refine ⟨hbitslt, hboblt, ?_, ?_⟩
    · intro x hx
      dsimp only [bb84_assemble] at hx
      rw [hsh] at hx
      obtain ⟨p, hp, hpx⟩ := List.mem_filterMap.mp hx
      obtain ⟨pm, pb⟩ := p
      cases pm with
      | false => simp at hpx
      | true =>
        simp only [if_pos, Option.some_inj] at hpx
        exact hpx ▸ hboblt pb (List.of_mem_zip hp).2
    · intro h2n
      have hpos : 0 < n / 2 := by omega
      have hne : diffs ≠ [] := by
        intro hdnil
        rw [hdnil] at hdlen
        simp only [List.length_nil] at hdlen
        omega
      dsimp only [bb84_assemble]
      rw [meanIndicator_some diffs hne]
      obtain ⟨hq0, hq1⟩ := mkRat_mem_unit (List.countP_le_length id)
        (List.length_pos.mpr hne)
      exact ⟨_, rfl, hq0, hq1⟩
  · intro res st' hr h1n
    rw [e91_protocol_eq] at hr
    simp only [Option.some_inj, Prod.mk.injEq] at hr
    obtain ⟨hres, -⟩ := hr
    subst hres
    have hlen : (((drawBits g n (seedState g seed st0)).1.zip
        (drawBits g n (drawBits g n (seedState g seed st0)).2).1).map
          (fun p => decide (p.1 = p.2))).length = n := by
      rw [List.length_map, List.length_zip, drawBits_length, drawBits_length]
      exact Nat.min_self n
    have hne : (((drawBits g n (seedState g seed st0)).1.zip
        (drawBits g n (drawBits g n (seedState g seed st0)).2).1).map
          (fun p => decide (p.1 = p.2))) ≠ [] := by
      intro h
      rw [h] at hlen
      simp only [List.length_nil] at hlen
      omega
    dsimp only
    rw [meanIndicator_some _ hne]
    obtain ⟨hq0, hq1⟩ := mkRat_mem_unit (List.countP_le_length id)
      (List.length_pos.mpr hne)
    exact ⟨_, rfl, hq0, hq1⟩

/-- Witness for the amended C3 at the concrete `n_qubits = 2` BB84 run. -/
theorem range_invariants_witness :
    (∀ b ∈ cres2.alice_bits, b < 2) ∧ (∀ b ∈ cres2.bob_bits, b < 2) ∧
    (∀ b ∈ cres2.shared_key, b < 2) ∧
    (2 ≤ 2 → ∃ r, cres2.error_rate = some r ∧ 0 ≤ r ∧ r ≤ 1) :=
  (range_invariants cgen_good 2 (some 0) 0).1 cres2 9 (by decide)

/-- Claim C9: `e91_protocol` draws two basis sequences of length `n_qubits`,
returns as correlation rate the fraction of indices where they agree, and
flags eavesdropping exactly when that rate is below `0.7`. -/
theorem e91_spec {g : Gen σ} (n : Nat) (h1 : 1 ≤ n) (seed : Option Int)
    (st0 : σ) (res : E91Result) (st' : σ)
    (hr : e91_protocol g n seed st0 = some (res, st')) :
    res.alice_bases.length = n ∧ res.bob_bases.length = n ∧
    res.correlation_rate = some (mkRat
      ((res.alice_bases.zip res.bob_bases).countP
        (fun p => decide (p.1 = p.2))) n) ∧
    (res.eavesdropped = true ↔
      ∃ q, res.correlation_rate = some q ∧ q < mkRat 7 10) := by
  rw [e91_protocol_eq] at hr
  simp only [Option.some_inj, Prod.mk.injEq] at hr
  obtain ⟨hres, -⟩ := hr
  subst hres
  have hziplen : ((drawBits g n (seedState g seed st0)).1.zip
      (drawBits g n (drawBits g n (seedState g seed st0)).2).1).length = n := by
    rw [List.length_zip, drawBits_length, drawBits_length]
    exact Nat.min_self n
  have hlen : (((drawBits g n (seedState g seed st0)).1.zip
      (drawBits g n (drawBits g n (seedState g seed st0)).2).1).map
        (fun p => decide (p.1 = p.2))).length = n := by
    rw [List.length_map, hziplen]
  have hne : (((drawBits g n (seedState g seed st0)).1.zip
      (drawBits g n (drawBits g n (seedState g seed st0)).2).1).map
        (fun p => decide (p.1 = p.2))) ≠ [] := by
    intro h
    rw [h] at hlen
    simp only [List.length_nil] at hlen
    omega
  dsimp only
  refine ⟨drawBits_length g n _, drawBits_length g n _, ?_, ?_⟩
  · rw [meanIndicator_some _ hne, List.countP_map, hlen]
    simp [Function.comp]
  · rw [detectLowCorrelation_iff]

/-- Witness for C9 at the concrete `n_qubits = 1` E91 run. -/
theorem e91_spec_witness :
    cresE91.alice_bases.length = 1 ∧ cresE91.bob_bases.length = 1 ∧
    cresE91.correlation_rate = some (mkRat
      ((cresE91.alice_bases.zip cresE91.bob_bases).countP
        (fun p => decide (p.1 = p.2))) 1) ∧
    (cresE91.eavesdropped = true ↔
      ∃ q, cresE91.correlation_rate = some q ∧ q < mkRat 7 10) :=
  @e91_spec Nat cgen 1 (by decide) (some 0) 0 cresE91 2 (by decide)

/-- Claim C5: the comparison subset is the `replace=False` draw of
`floor(n_qubits / 2)` indices — pairwise distinct, drawn from the full range
`[0, n_qubits)` with no restriction to matched bases; the error rate is the
fraction of sampled indices where Alice's original bit differs from Bob's
recorded bit (whenever the subset is nonempty, i.e. `n_qubits ≥ 2`); and
eavesdropping is flagged exactly when the error rate exceeds `0.15`. -/
theorem bb84_error_rate_spec {g : Gen σ} (hg : GoodGen g) (n : Nat)
    (seed : Option Int) (st0 : σ)
    (bits abas bbas : List Nat) (pols : List Char) (lo : LoopOut) (st1 : σ)
    (hcore : bb84_core g n (seedState g seed st0) =
      some ((bits, abas, bbas, pols, lo), st1))
    (subset : List Nat)
    (hsub : subset = (g.choice n (n / 2) false st1).1)
    (res : BB84Result) (st' : σ)
    (hrun : bb84_protocol g n seed st0 = some (res, st')) :
    subset.length = n / 2 ∧ subset.Nodup ∧ (∀ i ∈ subset, i < n) ∧
    (2 ≤ n → res.error_rate = some (mkRat (subset.countP
      (fun i => decide (bits.getD i 0 ≠ lo.bob_results.getD i 0)))
      subset.length)) ∧
    (res.eavesdropping_detected = true ↔
      ∃ r, res.error_rate = some r ∧ mkRat 3 20 < r) := by
  subst hsub
  obtain ⟨hclen, hcnd, hcmem⟩ :=
    hg.choice_subset n (n / 2) st1 (Nat.div_le_self n 2)
  have hr' : bb84_run g n (seedState g seed st0) = some (res, st') := hrun
  obtain ⟨diffs, hd, hres, -⟩ := bb84_run_inv hcore hr'
  subst hres
  obtain ⟨hbits, habas, hbbas, hpols, hquad, hbob, heve, hmat⟩ :=
    bb84_core_lengths hcore
  obtain ⟨l, hl, hllen, hlcnt⟩ := sampleDiff_spec bits lo.bob_results _
    (fun i hi => ⟨by rw [hbits]; exact hcmem i hi,
                  by rw [hbob]; exact hcmem i hi⟩)
  rw [hl] at hd
  obtain rfl : l = diffs := Option.some_inj.mp hd
  refine ⟨hclen, hcnd, hcmem, ?_, ?_⟩
  · intro h2n
    have hne : l ≠ [] := by
      intro h0
      rw [h0] at hllen
      simp only [List.length_nil] at hllen
      omega
    dsimp only [bb84_assemble]
    rw [meanIndicator_some l hne, hlcnt, hllen]
  · dsimp only [bb84_assemble]
    exact detectHighError_iff _

/-- Witness for C5 at the concrete `n_qubits = 2` BB84 run. -/
theorem bb84_error_rate_spec_witness :
    ([0] : List Nat).length = 2 / 2 ∧ ([0] : List Nat).Nodup ∧
    (∀ i ∈ ([0] : List Nat), i < 2) ∧
    (2 ≤ 2 → cres2.error_rate = some (mkRat (([0] : List Nat).countP
      (fun i => decide (([0, 1] : List Nat).getD i 0 ≠
        clo2.bob_results.getD i 0))) ([0] : List Nat).length)) ∧
    (cres2.eavesdropping_detected = true ↔
      ∃ r, cres2.error_rate = some r ∧ mkRat 3 20 < r) :=
  bb84_error_rate_spec cgen_good 2 (some 0) 0 [0, 1] [0, 1] [0, 1]
    ['↑', '↘'] clo2 8 (by rfl) [0] (by decide) cres2 9 (by decide)

/-- Claim C6: the shared key is exactly the ordered subsequence of Bob's bits
at matched-basis positions; its length is the number of matched bases and is
at most `n_qubits`; and at every matched index Bob's bit is Eve's re-guessed
bit when she intervened, otherwise Alice's original bit. -/
theorem bb84_shared_key_spec {g : Gen σ} (n : Nat) (seed : Option Int)
    (st0 : σ) (bits abas bbas : List Nat) (pols : List Char) (lo : LoopOut)
    (st1 : σ)
    (hcore : bb84_core g n (seedState g seed st0) =
      some ((bits, abas, bbas, pols, lo), st1))
    (res : BB84Result) (st' : σ)
    (hrun : bb84_protocol g n seed st0 = some (res, st')) :
    res.shared_key = (res.matched_bases.zip res.bob_bits).filterMap
        (fun p => if p.1 then some p.2 else none) ∧
    res.shared_key.length = res.matched_bases.countP (fun m => m) ∧
    res.shared_key.length ≤ n ∧
    (∀ i : Nat, res.matched_bases[i]? = some true →
      ∃ (e : Option Nat) (bit : Nat), lo.eve_interventions[i]? = some e ∧
        bits[i]? = some bit ∧ res.bob_bits[i]? = some (e.getD bit)) := by
  have hr' : bb84_run g n (seedState g seed st0) = some (res, st') := hrun
  obtain ⟨diffs, hd, hres, -⟩ := bb84_run_inv hcore hr'
  subst hres
  obtain ⟨h1, h2, h3, h4, h5, h6⟩ := bb84_core_inv hcore
  obtain ⟨hbits, habas, hbbas, hpols, hquad, hbob, heve, hmat⟩ :=
    bb84_core_lengths hcore
  have hsk : lo.shared_key = (lo.matched_bases.zip lo.bob_results).filterMap
      (fun p => if p.1 then some p.2 else none) := by
    rw [h5]; exact bb84Loop_shared_eq g _ _
  have hskl : lo.shared_key.length = lo.matched_bases.countP (fun m => m) := by
    rw [h5]; exact bb84Loop_shared_len g _ _
  dsimp only [bb84_assemble]
  refine ⟨hsk, hskl, ?_, ?_⟩
  · rw [hskl]
    exact le_trans (List.countP_le_length _) (le_of_eq hmat)
  · intro i hmi
    have hmmap : lo.matched_bases = (zip4 bits abas bbas pols).map
        (fun q => decide (q.2.1 = q.2.2.1)) := by
      rw [h5]; exact bb84Loop_matched g _ _
    rw [hmmap, List.getElem?_map] at hmi
    cases hq : (zip4 bits abas bbas pols)[i]? with
    | none => rw [hq] at hmi; cases hmi
    | some q =>
      rw [hq] at hmi
      obtain ⟨bit, ab, bb2, pol⟩ := q
      simp only [Option.map_some', Option.some_inj] at hmi
      have hab : ab = bb2 := of_decide_eq_true hmi
      obtain ⟨hbq, haq, hbbq, hpq⟩ := (zip4_getElem_eq _ _ _ _ _ _ _ _ _).mp hq
      obtain ⟨e, he, hbobg⟩ := bb84Loop_bob_getElem g (zip4 bits abas bbas pols)
        (drawBits g n (drawBits g n (drawBits g n (seedState g seed st0)).2).2).2
        i bit ab bb2 pol hq hab
      refine ⟨e, bit, ?_, hbq, ?_⟩
      · rw [h5]; exact he
      · rw [h5]; exact hbobg

/-- Witness for C6 at the concrete `n_qubits = 2` BB84 run. -/
theorem bb84_shared_key_spec_witness :
    cres2.shared_key = (cres2.matched_bases.zip cres2.bob_bits).filterMap
        (fun p => if p.1 then some p.2 else none) ∧
    cres2.shared_key.length = cres2.matched_bases.countP (fun m => m) ∧
    cres2.shared_key.length ≤ 2 ∧
    (∀ i : Nat, cres2.matched_bases[i]? = some true →
      ∃ (e : Option Nat) (bit : Nat), clo2.eve_interventions[i]? = some e ∧
        ([0, 1] : List Nat)[i]? = some bit ∧
        cres2.bob_bits[i]? = some (e.getD bit)) :=
  @bb84_shared_key_spec Nat cgen 2 (some 0) 0 [0, 1] [0, 1] [0, 1]
    ['↑', '↘'] clo2 8 (by rfl) cres2 9 (by decide)

/-- Claim C7: at every index, the matched-bases flag holds exactly when
Alice's and Bob's bases agree; on matched indices Bob's recorded polarization
equals Alice's, and on mismatched indices it is the unmeasurable marker `?`
regardless of Bob's basis. -/
theorem bb84_reconciliation_spec {g : Gen σ} (hg : GoodGen g) (n : Nat)
    (seed : Option Int) (st0 : σ) (res : BB84Result) (st' : σ)
    (hrun : bb84_protocol g n seed st0 = some (res, st')) :
    ∀ i, i < n → ∃ ab bb mb ap bp,
      res.alice_bases[i]? = some ab ∧ res.bob_bases[i]? = some bb ∧
      res.matched_bases[i]? = some mb ∧
      res.alice_polarizations[i]? = some ap ∧
      res.bob_polarizations[i]? = some bp ∧
      (mb = true ↔ ab = bb) ∧ (mb = true → bp = ap) ∧
      (mb = false → bp = '?') := by
  obtain ⟨bits, abas, bbas, pols, lo, st1, hcore⟩ :=
    bb84_core_some hg n (seedState g seed st0)
  have hr' : bb84_run g n (seedState g seed st0) = some (res, st') := hrun
  obtain ⟨diffs, hd, hres, -⟩ := bb84_run_inv hcore hr'
  subst hres
  obtain ⟨h1, h2, h3, h4, h5, h6⟩ := bb84_core_inv hcore
  obtain ⟨hbits, habas, hbbas, hpols, hquad, hbob, heve, hmat⟩ :=
    bb84_core_lengths hcore
  intro i hi
  have hibit : i < bits.length := by omega
  have hia : i < abas.length := by omega
  have hib : i < bbas.length := by omega
  have hip : i < pols.length := by omega
  have hqd : (zip4 bits abas bbas pols)[i]? =
      some (bits[i], abas[i], bbas[i], pols[i]) :=
    (zip4_getElem_eq _ _ _ _ _ _ _ _ _).mpr
      ⟨List.getElem?_eq_getElem hibit, List.getElem?_eq_getElem hia,
        List.getElem?_eq_getElem hib, List.getElem?_eq_getElem hip⟩
  have hmmap : lo.matched_bases = (zip4 bits abas bbas pols).map
      (fun q => decide (q.2.1 = q.2.2.1)) := by
    rw [h5]; exact bb84Loop_matched g _ _
  have hpmap : lo.bob_polarizations = (zip4 bits abas bbas pols).map
      (fun q => if q.2.1 = q.2.2.1 then q.2.2.2 else '?') := by
    rw [h5]; exact bb84Loop_pols g _ _
  have ha2 : abas[i] < 2 := by
    have hmem : abas[i] ∈ (drawBits g n (drawBits g n
        (seedState g seed st0)).2).1 := by
      rw [← h2]; exact List.getElem_mem hia
    exact drawBits_lt_two hg n _ _ hmem
  have hb2 : bbas[i] < 2 := by
    have hmem : bbas[i] ∈ (drawBits g n (drawBits g n (drawBits g n
        (seedState g seed st0)).2).2).1 := by
      rw [← h3]; exact List.getElem_mem hib
    exact drawBits_lt_two hg n _ _ hmem
  dsimp only [bb84_assemble]
  refine ⟨basisChar abas[i], basisChar bbas[i], decide (abas[i] = bbas[i]),
    pols[i], if abas[i] = bbas[i] then pols[i] else '?',
    ?_, ?_, ?_, ?_, ?_, ?_, ?_, ?_⟩
  · rw [List.getElem?_map, List.getElem?_eq_getElem hia, Option.map_some']
  · rw [List.getElem?_map, List.getElem?_eq_getElem hib, Option.map_some']
  · rw [hmmap, List.getElem?_map, hqd, Option.map_some']
  · exact List.getElem?_eq_getElem hip
  · rw [hpmap, List.getElem?_map, hqd, Option.map_some']
  · rcases (by omega : abas[i] = 0 ∨ abas[i] = 1) with h | h <;>
      rcases (by omega : bbas[i] = 0 ∨ bbas[i] = 1) with h' | h' <;>
      rw [h, h'] <;> decide
  · intro hmb
    rw [if_pos (of_decide_eq_true hmb)]
  · intro hmb
    rw [if_neg (of_decide_eq_false hmb)]

/-- Witness for C7 at index 0 of the concrete `n_qubits = 2` BB84 run. -/
theorem bb84_reconciliation_spec_witness :
    ∃ ab bb mb ap bp,
      cres2.alice_bases[0]? = some ab ∧ cres2.bob_bases[0]? = some bb ∧
      cres2.matched_bases[0]? = some mb ∧
      cres2.alice_polarizations[0]? = some ap ∧
      cres2.bob_polarizations[0]? = some bp ∧
      (mb = true ↔ ab = bb) ∧ (mb = true → bp = ap) ∧
      (mb = false → bp = '?') :=
  bb84_reconciliation_spec cgen_good 2 (some 0) 0 cres2 9 (by decide) 0
    (by decide)

end QKD
